import Mathlib

/-!
Verification of the PantryScanner inventory-reconciliation logic.

This file gives a shallow embedding of the change-parsing and
inventory-reconciliation routines of the repository
(`src/pantry_scanner.py` together with `src/database.py`) and proves
properties of them.

Modelling conventions:
* Python strings are modelled as `List Char` (named `Str` below); all the
  string primitives used by the source (`strip`, `split`, `in`,
  `startswith`, `upper`, `lower`, `rstrip`, `replace`, slicing) are
  re-implemented on `List Char`, so every definition is executable and
  kernel-reducible.  Case mapping uses `Char.toLower`/`Char.toUpper`,
  which agrees with Python on the ASCII material the scanner handles.
* SQL INTEGER columns are modelled as `Int` (with `max` where the SQL
  uses `GREATEST`), SERIAL ids as list positions, and `NOW()` timestamps
  as an abstract `Nat` tick passed in by the caller.
* The item table of `pantry_items` is a `List Item` in insertion order;
  `fetchone`/`LIMIT 1` become "first element in list order".
* Each Python database method wraps its statements in a cursor with
  `commit` on success and `rollback` + re-raise on failure.  Failures of
  the database layer (psycopg2 exceptions) are external events; they are
  modelled by an oracle `Nat → Bool` indexed by the position of the
  primitive call inside one `save_to_database` run: a call whose index
  the oracle marks raises, contributing nothing to the state (its own
  rollback), and no later call of that run executes.  The `try/except`
  in `PantryScanner.save_to_database` catches the exception and merely
  prints it, so the run always returns the state accumulated so far.
-/

namespace PantryScanner

/-- Python strings, modelled as their character lists. -/
abbrev Str := List Char

/-! ## Generic string primitives (Python builtins used by the source) -/

/-- Python `str.lower` (ASCII case mapping). -/
def lowerStr (s : Str) : Str := s.map Char.toLower

/-- Python `str.upper` (ASCII case mapping). -/
def upperStr (s : Str) : Str := s.map Char.toUpper

/-- Python `str.strip()`: drop whitespace from both ends. -/
def trimL (s : Str) : Str :=
  List.rdropWhile Char.isWhitespace (s.dropWhile Char.isWhitespace)

/-- Python `pat in s`: substring containment test. -/
def infixB (pat : Str) : Str → Bool
  | [] => pat.isEmpty
  | c :: rest => pat.isPrefixOf (c :: rest) || infixB pat rest

/-- Python `s.split(sep)[0]`: the part of `s` before the first occurrence
of `sep` (all of `s` when `sep` does not occur). -/
def splitFirst (sep : Str) : Str → Str
  | [] => []
  | c :: rest => if sep.isPrefixOf (c :: rest) then [] else c :: splitFirst sep rest

/-- Python `s.split(sep)` for a one-character separator (used with
`'\n'` by `parse_changes`). -/
def splitOnChar (sep : Char) : Str → List Str
  | [] => [[]]
  | c :: rest =>
    if c == sep then [] :: splitOnChar sep rest
    else
      match splitOnChar sep rest with
      | [] => [[c]]
      | h :: t => (c :: h) :: t

/-- `s.startswith(c)` for a single character. -/
def startsWithChar (c : Char) (s : Str) : Bool :=
  match s with
  | d :: _ => d == c
  | [] => false

/-- Case-insensitive equality, `LOWER(a) = LOWER(b)` in the SQL. -/
def lowerEq (a b : Str) : Bool := lowerStr a == lowerStr b

/-- The SQL `LOWER(item_name) LIKE LOWER('%needle%')` containment test
(the needle is interpolated literally; wildcard metacharacters inside it
are not modelled). -/
def containsLower (needle hay : Str) : Bool :=
  infixB (lowerStr needle) (lowerStr hay)

/-! ## Name Normalizer — `PantryScanner.extract_item_name`
(src/pantry_scanner.py lines 137-159) -/

/-- The loop body of the separator loop of `extract_item_name`:
`if separator in item: item = item.split(separator)[0].strip()`. -/
def cutSep (sep item : Str) : Str :=
  if infixB sep item then trimL (splitFirst sep item) else item

/-- The `for separator in [' - ', ' (', '  ']` loop of
`extract_item_name`: for each separator in order, if it occurs, keep the
part before its first occurrence and strip. -/
def truncStep (item : Str) : Str :=
  cutSep "  ".data (cutSep " (".data (cutSep " - ".data item))

/-- A trailing character removed by `item.rstrip('.,;:')`. -/
def isTrailPunct (c : Char) : Bool := c == '.' || c == ',' || c == ';' || c == ':'

/-- `item.rstrip('.,;:')`. -/
def rstripPunct (item : Str) : Str := List.rdropWhile isTrailPunct item

/-- The final length cap: `if len(item) > 100: item = item[:100].strip()`. -/
def capLen (item : Str) : Str :=
  if 100 < item.length then trimL (item.take 100) else item

/-- `PantryScanner.extract_item_name`: strip, cascade-truncate at the
three separators, strip trailing punctuation, cap at 100 characters. -/
def extract_item_name (s : Str) : Str :=
  capLen (rstripPunct (truncStep (trimL s)))

/-! ## Change Extractor — `PantryScanner.parse_changes`
(src/pantry_scanner.py lines 87-135) -/

/-- The three sections recognised by the parser. -/
inductive Tag
  | added
  | removed
  | changed
deriving DecidableEq, Repr

/-- Parser state: the current section plus the three accumulated lists. -/
structure ParseState where
  current : Option Tag
  added : List Str
  removed : List Str
  changed : List Str
deriving DecidableEq, Repr

/-- The empty parser state. -/
def initParse : ParseState := ⟨none, [], [], []⟩

/-- `'ADDED' in up and 'ITEM' in up` etc. on the upper-cased line: does a
(stripped) line match one of the three section-header keyword tests? -/
def isSectionHeader (line : Str) : Bool :=
  (infixB "ADDED".data (upperStr line) && infixB "ITEM".data (upperStr line)) ||
  (infixB "REMOVED".data (upperStr line) && infixB "ITEM".data (upperStr line)) ||
  (infixB "QUANTITY".data (upperStr line) && infixB "CHANGED".data (upperStr line))

/-- The reset test of line 115 of src/pantry_scanner.py, restricted (as
the `elif` chain does) to lines that are not section headers:
`line.startswith('#') or line.startswith('**Summary') or 'Items Unchanged' in line`. -/
def isResetLine (line : Str) : Bool :=
  !isSectionHeader line &&
    (startsWithChar '#' line || "**Summary".data.isPrefixOf line ||
      infixB "Items Unchanged".data line)

/-- A character of the bullet-prefix class `[-*•\d.]`. -/
def bulletChar (c : Char) : Bool :=
  c == '-' || c == '*' || c == '•' || c == '.' || c.isDigit

/-- `re.match(r'^\d+\.', line)`: one or more digits followed by a dot. -/
def isNumberedLine (l : Str) : Bool :=
  match l with
  | c :: _ =>
    c.isDigit &&
      (match l.dropWhile Char.isDigit with
       | '.' :: _ => true
       | _ => false)
  | [] => false

/-- The bullet test of lines 122-123: dash, asterisk, bullet character,
or a digit-dot numbering prefix. -/
def isBulletLine (l : Str) : Bool :=
  startsWithChar '-' l || startsWithChar '*' l || startsWithChar '•' l || isNumberedLine l

/-- `re.sub(r'^[-*•\d.]+\s*', '', line)`: if the line begins with a
bullet-class character, drop the leading run of such characters and the
whitespace after it, otherwise leave the line unchanged. -/
def stripBulletPrefix (l : Str) : Str :=
  match l with
  | c :: _ =>
    if bulletChar c then (l.dropWhile bulletChar).dropWhile Char.isWhitespace else l
  | [] => []

/-- `item.replace('**', '')`: delete the occurrences of `**`, scanning
left to right. -/
def removeBold : Str → Str
  | '*' :: '*' :: rest => removeBold rest
  | c :: rest => c :: removeBold rest
  | [] => []

/-- The cleaned bullet text of lines 126-129. -/
def cleanBullet (line : Str) : Str :=
  removeBold (trimL (stripBulletPrefix line))

/-- The "no change" sentinel test of line 132:
`item.lower() not in ['none', 'none detected', 'no changes detected']`
(here as the positive membership test). -/
def isNoneSentinel (item : Str) : Bool :=
  let low := lowerStr item
  low == "none".data || low == "none detected".data || low == "no changes detected".data

/-- Append an extracted item to the list selected by the tag. -/
def pushItem (st : ParseState) (t : Tag) (item : Str) : ParseState :=
  match t with
  | .added => { st with added := st.added ++ [item] }
  | .removed => { st with removed := st.removed ++ [item] }
  | .changed => { st with changed := st.changed ++ [item] }

/-- One iteration of the line loop of `parse_changes`. -/
def parseLine (st : ParseState) (raw : Str) : ParseState :=
  let line := trimL raw
  let up := upperStr line
  if infixB "ADDED".data up && infixB "ITEM".data up then
    { st with current := some Tag.added }
  else if infixB "REMOVED".data up && infixB "ITEM".data up then
    { st with current := some Tag.removed }
  else if infixB "QUANTITY".data up && infixB "CHANGED".data up then
    { st with current := some Tag.changed }
  else if startsWithChar '#' line || "**Summary".data.isPrefixOf line ||
      infixB "Items Unchanged".data line then
    { st with current := none }
  else
    match st.current with
    | none => st
    | some t =>
      if line.isEmpty then st
      else if isBulletLine line then
        let item := cleanBullet line
        if !item.isEmpty && !isNoneSentinel item then pushItem st t item else st
      else st

/-- `PantryScanner.parse_changes`: split the analysis text on newlines
and fold the line loop. -/
def parse_changes (text : Str) : ParseState :=
  (splitOnChar '\n' text).foldl parseLine initParse

/-! ## Inventory Reconciler — `PantryDatabase` (src/database.py)

One row of `pantry_items`, `pantry_scans`, `inventory_changes` each;
ids are list positions, and a SERIAL id equals the length of the list at
insertion time. -/

/-- A row of `pantry_items`. -/
structure Item where
  name : Str
  quantity : Int
  active : Bool
  firstSeen : Nat
  lastSeen : Nat
deriving DecidableEq, Repr

/-- A row of `pantry_scans` (the claims never inspect `api_cost`, a
float; it is omitted from the model). -/
structure Scan where
  imagePath : Option Str
  rawAnalysis : Str
  inputTokens : Nat
  outputTokens : Nat
deriving DecidableEq, Repr

/-- The `change_type` column values written by the scanner. -/
inductive ChangeType
  | added
  | removed
  | quantity_changed
deriving DecidableEq, Repr

/-- A row of `inventory_changes`. -/
structure ChangeRec where
  scanId : Nat
  itemName : Str
  changeType : ChangeType
  details : Str
deriving DecidableEq, Repr

/-- Replace element `i` by `f` applied to it (the SQL
`UPDATE ... WHERE item_id = i`). -/
def modifyIdx (f : Item → Item) : Nat → List Item → List Item
  | _, [] => []
  | 0, it :: rest => f it :: rest
  | i + 1, it :: rest => it :: modifyIdx f i rest

/-- The row update shared by both branches of
`PantryDatabase.remove_item`:
`current_quantity = GREATEST(current_quantity - 1, 0)`,
`is_active = CASE WHEN current_quantity <= 1 THEN FALSE ELSE TRUE END`
(evaluated against the old row), `last_seen = NOW()`. -/
def decOne (now : Nat) (it : Item) : Item :=
  { it with
    quantity := max (it.quantity - 1) 0
    active := decide (1 < it.quantity)
    lastSeen := now }

/-- `PantryDatabase.add_item` (lines 140-180): case-insensitive lookup;
if a row exists, refresh `last_seen`, set active, increment the
quantity; otherwise insert a fresh row with the defaults
(`current_quantity 1`, `is_active TRUE`). -/
def add_item (now : Nat) (name : Str) (items : List Item) : List Item :=
  match items.findIdx? (fun it => lowerEq it.name name) with
  | some i =>
    modifyIdx
      (fun it => { it with lastSeen := now, active := true, quantity := it.quantity + 1 })
      i items
  | none =>
    items ++ [{ name := name, quantity := 1, active := true, firstSeen := now, lastSeen := now }]

/-- `PantryDatabase.remove_item` (lines 182-237): first an exact
case-insensitive `UPDATE` (which touches every matching row); only when
that matched no row, a fuzzy containment lookup restricted to active
rows, `LIMIT 1`, and an update of that single row.  The boolean reports
whether any row was matched; when it is false the routine only prints a
console warning. -/
def remove_item (now : Nat) (name : Str) (items : List Item) : List Item × Bool :=
  if items.any (fun it => lowerEq it.name name) then
    (items.map (fun it => if lowerEq it.name name then decOne now it else it), true)
  else
    match items.findIdx? (fun it => containsLower name it.name && it.active) with
    | some i => (modifyIdx (decOne now) i items, true)
    | none => (items, false)

/-- `PantryDatabase.log_change` (lines 239-256): append one immutable
history row. -/
def log_change (sid : Nat) (name : Str) (ty : ChangeType) (details : Str)
    (changes : List ChangeRec) : List ChangeRec :=
  changes ++ [⟨sid, name, ty, details⟩]

/-- `PantryDatabase.save_scan` (lines 111-138): insert one scan row and
return its SERIAL id. -/
def save_scan (sc : Scan) (scans : List Scan) : List Scan × Nat :=
  (scans ++ [sc], scans.length)

/-- The whole database state: the three tables. -/
structure DB where
  scans : List Scan
  items : List Item
  changes : List ChangeRec
deriving DecidableEq, Repr

/-- The empty database. -/
def emptyDB : DB := ⟨[], [], []⟩

/-! ## Scan persistence — `PantryScanner.save_to_database`
(src/pantry_scanner.py lines 161-199)

The body of `save_to_database` issues a fixed sequence of primitive
database calls: `save_scan`, then per added item `add_item` +
`log_change`, per removed item `remove_item` + `log_change`, per
quantity-changed item `log_change`.  Each primitive call commits its own
work; its committed effect on the database state is one of the `DB → DB`
functions below. -/

/-- Committed effect of the `save_scan` call. -/
def saveScanOp (imagePath : Option Str) (raw : Str) (itok otok : Nat) : DB → DB :=
  fun db => { db with scans := (save_scan ⟨imagePath, raw, itok, otok⟩ db.scans).1 }

/-- Committed effect of an `add_item` call. -/
def addOp (now : Nat) (name : Str) : DB → DB :=
  fun db => { db with items := add_item now name db.items }

/-- Committed effect of a `remove_item` call. -/
def removeOp (now : Nat) (name : Str) : DB → DB :=
  fun db => { db with items := (remove_item now name db.items).1 }

/-- Committed effect of a `log_change` call. -/
def logOp (sid : Nat) (name : Str) (ty : ChangeType) (details : Str) : DB → DB :=
  fun db => { db with changes := log_change sid name ty details db.changes }

/-- The two calls issued for one added item (lines 180-183). -/
def addedCalls (now sid : Nat) (raw : Str) : List (DB → DB) :=
  [addOp now (extract_item_name raw), logOp sid (extract_item_name raw) .added raw]

/-- The two calls issued for one removed item (lines 186-189): note that
`log_change` runs unconditionally after `remove_item`. -/
def removedCalls (now sid : Nat) (raw : Str) : List (DB → DB) :=
  [removeOp now (extract_item_name raw), logOp sid (extract_item_name raw) .removed raw]

/-- The single call issued for one quantity-changed item (lines
192-194): only `log_change`, no item mutation. -/
def changedCalls (sid : Nat) (raw : Str) : List (DB → DB) :=
  [logOp sid (extract_item_name raw) .quantity_changed raw]

/-- The full call sequence of one `save_to_database` run. -/
def scanCalls (now sid : Nat) (imagePath : Option Str) (analysis : Str)
    (itok otok : Nat) : List (DB → DB) :=
  let ch := parse_changes analysis
  saveScanOp imagePath analysis itok otok ::
    (ch.added.flatMap (addedCalls now sid) ++
     ch.removed.flatMap (removedCalls now sid) ++
     ch.changed.flatMap (changedCalls sid))

/-- Apply a call sequence with no failures. -/
def applyCalls (calls : List (DB → DB)) (db : DB) : DB :=
  calls.foldl (fun d op => op d) db

/-- Run a call sequence against a failure oracle.  The call at absolute
index `i` raises exactly when `oracle i` is true; a raising call rolls
back only its own statements (contributing nothing), every later call of
the run is skipped, and the returned boolean is false exactly when some
call raised. -/
def runCalls (oracle : Nat → Bool) : Nat → List (DB → DB) → DB → DB × Bool
  | _, [], db => (db, true)
  | i, op :: rest, db =>
    if oracle i then (db, false) else runCalls oracle (i + 1) rest (op db)

/-- `PantryScanner.save_to_database`: run the call sequence of one scan.
The surrounding `try/except` catches any exception from the database
layer and only prints it, so the caller always receives a normal return
carrying whatever state the earlier calls committed. -/
def save_to_database (oracle : Nat → Bool) (now : Nat) (imagePath : Option Str)
    (analysis : Str) (itok otok : Nat) (db : DB) : DB :=
  (runCalls oracle 0 (scanCalls now db.scans.length imagePath analysis itok otok) db).1

/-- An oracle under which every database call succeeds. -/
def neverFail : Nat → Bool := fun _ => false

/-! ## Specification-side definitions and auxiliary notions used by the
statements below -/

/-- Truncation as the specification words it: cut at the first
occurrence of `sep` — the least index whose suffix starts with `sep` —
keeping everything before it; leave the string alone when `sep` does not
occur. -/
def truncAtFirstOcc (sep l : Str) : Str :=
  match (List.range l.length).find? (fun i => sep.isPrefixOf (l.drop i)) with
  | some i => l.take i
  | none => l

/-- One specification-side truncation pass: truncate at the first
occurrence of the separator (when present) and strip. -/
def specTruncate (sep item : Str) : Str :=
  if infixB sep item then trimL (truncAtFirstOcc sep item) else item

/-- The Name Normalizer as the amended claim words it: truncate at the
first occurrence of each separator in priority order (`" - "`, `" ("`,
double space), strip trailing punctuation characters (`.,;:`), cap the
length at 100 characters.  (Markdown bold markers are not touched; their
removal happens in the Change Extractor.) -/
def specNormalize (s : Str) : Str :=
  capLen (rstripPunct
    (specTruncate "  ".data (specTruncate " (".data (specTruncate " - ".data (trimL s)))))

/-- The last character of `l` is neither whitespace nor one of the
trailing-punctuation characters (vacuously true for the empty string). -/
def goodEnd (l : Str) : Bool :=
  match l.getLast? with
  | none => true
  | some c => !(c.isWhitespace || isTrailPunct c)

/-- One reconciliation event against the item table. -/
inductive Op
  | add (now : Nat) (name : Str)
  | remove (now : Nat) (name : Str)
deriving DecidableEq, Repr

/-- Apply one event to the item table (the item-table component of
`add_item` / `remove_item`). -/
def applyOp (items : List Item) : Op → List Item
  | .add now name => add_item now name items
  | .remove now name => (remove_item now name items).1

/-- Apply a sequence of add/remove events in order. -/
def runOps (ops : List Op) (items : List Item) : List Item :=
  ops.foldl applyOp items

/-- The item-state invariant of the specification: quantity is never
negative, and a row is active exactly when its quantity is positive. -/
def ItemInv (it : Item) : Prop :=
  0 ≤ it.quantity ∧ (it.active = true ↔ 0 < it.quantity)

/-! ## String lemmas -/

theorem infixB_iff (pat l : Str) : infixB pat l = true ↔ pat <:+: l := by
  induction l with
  | nil => simp [infixB, List.isEmpty_iff, List.infix_nil]
  | cons c rest ih =>
    simp [infixB, Bool.or_eq_true, List.isPrefixOf_iff_prefix, ih, List.infix_cons_iff]

theorem infixB_false_iff (pat l : Str) : infixB pat l = false ↔ ¬pat <:+: l := by
  rw [← infixB_iff, Bool.eq_false_iff]

theorem splitFirst_front (sep l : Str) : splitFirst sep l <+: l := by
  induction l with
  | nil => simp [splitFirst]
  | cons c rest ih =>
    rw [splitFirst]
    split
    · exact List.nil_prefix
    · exact List.cons_prefix_cons.2 ⟨rfl, ih⟩

theorem not_infix_splitFirst (sep : Str) (hsep : sep ≠ []) (l : Str) :
    ¬sep <:+: splitFirst sep l := by
  induction l with
  | nil =>
    simp only [splitFirst, List.infix_nil]
    exact hsep
  | cons c rest ih =>
    rw [splitFirst]
    split
    · simp only [List.infix_nil]
      exact hsep
    · intro hc
      rcases List.infix_cons_iff.1 hc with hpre | hinf
      · have h1 : splitFirst sep rest <+: rest := splitFirst_front sep rest
        have h2 : (c :: splitFirst sep rest) <+: (c :: rest) :=
          List.cons_prefix_cons.2 ⟨rfl, h1⟩
        have h3 : sep <+: (c :: rest) := hpre.trans h2
        have h4 : sep.isPrefixOf (c :: rest) = true := List.isPrefixOf_iff_prefix.2 h3
        simp_all
      · exact ih hinf

theorem trimL_within (l : Str) : trimL l <:+: l :=
  (List.rdropWhile_prefix _ _).isInfix.trans (List.dropWhile_suffix _).isInfix

theorem not_infix_trans {pat m l : Str} (hm : m <:+: l) (h : ¬pat <:+: l) :
    ¬pat <:+: m :=
  fun hc => h (hc.trans hm)

theorem rstripPunct_within (l : Str) : rstripPunct l <:+: l :=
  (List.rdropWhile_prefix _ _).isInfix

theorem capLen_within (l : Str) : capLen l <:+: l := by
  rw [capLen]
  split
  · exact (trimL_within _).trans (List.take_prefix _ _).isInfix
  · exact List.infix_refl l

theorem capLen_length_le (l : Str) : (capLen l).length ≤ 100 := by
  rw [capLen]
  split
  · calc (trimL (l.take 100)).length ≤ (l.take 100).length :=
          (trimL_within _).length_le
      _ ≤ 100 := by simp [List.length_take]
  · omega

theorem cutSep_no_sep (sep : Str) (hsep : sep ≠ []) (item : Str) :
    ¬sep <:+: cutSep sep item := by
  rw [cutSep]
  split
  · exact not_infix_trans (trimL_within _) (not_infix_splitFirst sep hsep _)
  · next h =>
    exact (infixB_false_iff sep item).1 (by simpa using h)

theorem cutSep_preserves {pat : Str} (sep item : Str) (h : ¬pat <:+: item) :
    ¬pat <:+: cutSep sep item := by
  rw [cutSep]
  split
  · exact not_infix_trans ((trimL_within _).trans (splitFirst_front sep item).isInfix) h
  · exact h

theorem truncStep_no_sep (item : Str) :
    ¬" - ".data <:+: truncStep item ∧ ¬" (".data <:+: truncStep item ∧
      ¬"  ".data <:+: truncStep item := by
  refine ⟨?_, ?_, ?_⟩
  · exact cutSep_preserves _ _ (cutSep_preserves _ _ (cutSep_no_sep _ (by decide) _))
  · exact cutSep_preserves _ _ (cutSep_no_sep _ (by decide) _)
  · exact cutSep_no_sep _ (by decide) _

theorem extract_no_sep (s : Str) :
    ¬" - ".data <:+: extract_item_name s ∧ ¬" (".data <:+: extract_item_name s ∧
      ¬"  ".data <:+: extract_item_name s := by
  have hinf : extract_item_name s <:+: truncStep (trimL s) :=
    (capLen_within _).trans (rstripPunct_within _)
  obtain ⟨h1, h2, h3⟩ := truncStep_no_sep (trimL s)
  exact ⟨not_infix_trans hinf h1, not_infix_trans hinf h2, not_infix_trans hinf h3⟩

theorem extract_length_le (s : Str) : (extract_item_name s).length ≤ 100 :=
  capLen_length_le _

theorem cutSep_eq_self_of_no_sep (sep item : Str) (h : ¬sep <:+: item) :
    cutSep sep item = item := by
  rw [cutSep, if_neg]
  simp [infixB_iff, h]

theorem truncStep_eq_self_of_no_sep (item : Str)
    (h1 : ¬" - ".data <:+: item) (h2 : ¬" (".data <:+: item)
    (h3 : ¬"  ".data <:+: item) : truncStep item = item := by
  rw [truncStep, cutSep_eq_self_of_no_sep _ _ h1, cutSep_eq_self_of_no_sep _ _ h2,
    cutSep_eq_self_of_no_sep _ _ h3]

theorem head?_dropWhile_not (p : Char → Bool) (l : Str) :
    ∀ c ∈ (l.dropWhile p).head?, p c = false := by
  induction l with
  | nil => simp [List.dropWhile]
  | cons a rest ih =>
    rw [List.dropWhile]
    split
    · exact ih
    · next h =>
      intro c hc
      simp only [List.head?_cons, Option.mem_def, Option.some.injEq] at hc
      subst hc
      simpa using h

theorem head_prop_of_prefix {P : Char → Prop} {m l : Str} (h : m <+: l)
    (hp : ∀ c ∈ l.head?, P c) : ∀ c ∈ m.head?, P c := by
  rcases h with ⟨t, rfl⟩
  cases m with
  | nil => simp
  | cons a m' =>
    intro c hc
    simp only [List.head?_cons, Option.mem_def, Option.some.injEq] at hc
    subst hc
    exact hp a (by simp)

theorem trimL_head_not_ws (l : Str) :
    ∀ c ∈ (trimL l).head?, c.isWhitespace = false := by
  rw [trimL]
  exact head_prop_of_prefix (List.rdropWhile_prefix _ _)
    (head?_dropWhile_not Char.isWhitespace l)

theorem cutSep_head_not_ws (sep item : Str)
    (h : ∀ c ∈ item.head?, c.isWhitespace = false) :
    ∀ c ∈ (cutSep sep item).head?, c.isWhitespace = false := by
  rw [cutSep]
  split
  · exact trimL_head_not_ws _
  · exact h

theorem extract_head_not_ws (s : Str) :
    ∀ c ∈ (extract_item_name s).head?, c.isWhitespace = false := by
  rw [extract_item_name, capLen]
  have h0 : ∀ c ∈ (truncStep (trimL s)).head?, c.isWhitespace = false := by
    rw [truncStep]
    exact cutSep_head_not_ws _ _ (cutSep_head_not_ws _ _
      (cutSep_head_not_ws _ _ (trimL_head_not_ws s)))
  have h1 : ∀ c ∈ (rstripPunct (truncStep (trimL s))).head?, c.isWhitespace = false :=
    head_prop_of_prefix (List.rdropWhile_prefix _ _) h0
  split
  · exact trimL_head_not_ws _
  · exact h1

theorem dropWhile_eq_self_of_head (p : Char → Bool) (l : Str)
    (h : ∀ c ∈ l.head?, p c = false) : l.dropWhile p = l := by
  cases l with
  | nil => simp
  | cons a rest =>
    rw [List.dropWhile]
    have := h a (by simp)
    simp [this]

theorem trimL_eq_self (l : Str) (hhead : ∀ c ∈ l.head?, c.isWhitespace = false)
    (hlast : ∀ hl : l ≠ [], (l.getLast hl).isWhitespace = false) : trimL l = l := by
  rw [trimL, dropWhile_eq_self_of_head _ _ hhead, List.rdropWhile_eq_self_iff]
  intro hl
  simp [hlast hl]

/-! The specification-side truncation coincides with the recursive
`split(sep)[0]` of the source. -/

theorem splitFirst_eq_truncAtFirstOcc (sep : Str) :
    ∀ l : Str, splitFirst sep l = truncAtFirstOcc sep l := by
  intro l
  induction l with
  | nil => simp [splitFirst, truncAtFirstOcc]
  | cons c rest ih =>
    rw [splitFirst, truncAtFirstOcc]
    by_cases hp : sep.isPrefixOf (c :: rest) = true
    · rw [if_pos hp]
      rw [List.length_cons, List.range_succ_eq_map,
        List.find?_cons_of_pos _ (by simpa using hp)]
      simp
    · rw [if_neg hp]
      rw [List.length_cons, List.range_succ_eq_map,
        List.find?_cons_of_neg _ (by simpa using hp), List.find?_map]
      have hcomp :
          ((fun i => sep.isPrefixOf ((c :: rest).drop i)) ∘ Nat.succ) =
            fun i => sep.isPrefixOf (rest.drop i) := by
        funext i
        simp [Function.comp, List.drop_succ_cons]
      rw [hcomp, truncAtFirstOcc] at *
      cases hfind : (List.range rest.length).find? (fun i => sep.isPrefixOf (rest.drop i)) with
      | none =>
        rw [hfind] at ih
        simp [hfind, ih]
      | some i =>
        rw [hfind] at ih
        simp [hfind, ih, List.take_cons]

theorem goodEnd_spec (l : Str) (h : goodEnd l = true) (hl : l ≠ []) :
    (l.getLast hl).isWhitespace = false ∧ isTrailPunct (l.getLast hl) = false := by
  unfold goodEnd at h
  rw [List.getLast?_eq_getLast l hl] at h
  simp only [Bool.not_eq_true', Bool.or_eq_false_iff] at h
  exact h

/-! ## Claims about the Name Normalizer -/

/-- C10: for every input string, the Name Normalizer's output contains
no occurrence of `" - "`, `" ("`, or two consecutive spaces, and
consequently re-applying the truncation step to the output changes
nothing. -/
theorem C10_output_has_no_separator (s : Str) :
    infixB " - ".data (extract_item_name s) = false ∧
    infixB " (".data (extract_item_name s) = false ∧
    infixB "  ".data (extract_item_name s) = false ∧
    truncStep (extract_item_name s) = extract_item_name s := by
  obtain ⟨h1, h2, h3⟩ := extract_no_sep s
  exact ⟨(infixB_false_iff _ _).2 h1, (infixB_false_iff _ _).2 h2,
    (infixB_false_iff _ _).2 h3, truncStep_eq_self_of_no_sep _ h1 h2 h3⟩

/-- C5, counterexample to the claim as stated: the Name Normalizer does
not strip markdown bold markers — `"**Milk**"` is returned unchanged,
still containing `"**"` (bold markers are removed earlier, by
`parse_changes`, not by `extract_item_name`). -/
theorem C5_counterexample :
    extract_item_name "**Milk**".data = "**Milk**".data ∧
    infixB "**".data (extract_item_name "**Milk**".data) = true := by decide

/-- C5 (amended): for every input string, the Name Normalizer strips the
input, truncates at the first occurrence of each separator in priority
order (`" - "`, then `" ("`, then double space), strips trailing
punctuation characters among `.,;:`, and caps the result at 100
characters; it does not strip markdown bold markers.  Stated as equality
with the specification-side normalizer `specNormalize`, whose truncation
is written as "cut at the least index where the separator occurs",
together with the length cap. -/
theorem C5_normalizer_follows_spec (s : Str) :
    extract_item_name s = specNormalize s ∧ (extract_item_name s).length ≤ 100 := by
  refine ⟨?_, extract_length_le s⟩
  have he : ∀ sep item : Str, cutSep sep item = specTruncate sep item := by
    intro sep item
    rw [cutSep, specTruncate, splitFirst_eq_truncAtFirstOcc]
  rw [extract_item_name, specNormalize, truncStep, he, he, he]

/-- C6, counterexample to the claim as stated: the Name Normalizer is
not idempotent.  `"a ."` normalizes to `"a "` (the trailing dot is
stripped after the whitespace strip, leaving a trailing space), which
re-normalizes to `"a"`; and a 105-character input whose 100th character
is a dot normalizes to a string ending in that dot (the length cap runs
after the punctuation strip), which re-normalizes shorter. -/
theorem C6_counterexample :
    extract_item_name (extract_item_name "a .".data) ≠ extract_item_name "a .".data ∧
    extract_item_name (extract_item_name (List.replicate 99 'a' ++ ".bbbbb".data)) ≠
      extract_item_name (List.replicate 99 'a' ++ ".bbbbb".data) := by decide

/-- C6 (amended): the Name Normalizer is idempotent on every input whose
normalized output ends in neither a whitespace character nor one of the
trailing-punctuation characters `.,;:` (the output of `extract_item_name`
can end in such a character, and only then does a second application
change it). -/
theorem C6_idempotent_on_good_outputs (s : Str)
    (h : goodEnd (extract_item_name s) = true) :
    extract_item_name (extract_item_name s) = extract_item_name s := by
  obtain ⟨h1, h2, h3⟩ := extract_no_sep s
  have hhead := extract_head_not_ws s
  have hlen := extract_length_le s
  set t := extract_item_name s with ht
  have hlast := goodEnd_spec t h
  have htrim : trimL t = t := trimL_eq_self t hhead (fun hl => (hlast hl).1)
  have htrunc : truncStep t = t := truncStep_eq_self_of_no_sep t h1 h2 h3
  have hrs : rstripPunct t = t := by
    rw [rstripPunct, List.rdropWhile_eq_self_iff]
    intro hl
    simp [(hlast hl).2]
  have hcap : capLen t = t := by
    rw [capLen, if_neg]
    omega
  rw [extract_item_name, htrim, htrunc, hrs, hcap]

/-- Witness for `C6_idempotent_on_good_outputs` at the concrete input
`"Milk - 2"`. -/
theorem C6_idempotent_witness :
    goodEnd (extract_item_name "Milk - 2".data) = true ∧
    extract_item_name (extract_item_name "Milk - 2".data) =
      extract_item_name "Milk - 2".data :=
  ⟨by decide, C6_idempotent_on_good_outputs "Milk - 2".data (by decide)⟩

/-! ## Claims about the Change Extractor -/

theorem header_conds_of_not_header (line : Str) (hh : isSectionHeader line = false) :
    (infixB "ADDED".data (upperStr line) && infixB "ITEM".data (upperStr line)) = false ∧
    (infixB "REMOVED".data (upperStr line) && infixB "ITEM".data (upperStr line)) = false ∧
    (infixB "QUANTITY".data (upperStr line) && infixB "CHANGED".data (upperStr line)) = false := by
  rw [isSectionHeader] at hh
  simp only [Bool.or_eq_false_iff] at hh
  exact ⟨hh.1.1, hh.1.2, hh.2⟩

theorem parseLine_reset (st : ParseState) (raw : Str)
    (h : isResetLine (trimL raw) = true) :
    parseLine st raw = { st with current := none } := by
  rw [isResetLine, Bool.and_eq_true] at h
  obtain ⟨hh, hd⟩ := h
  rw [Bool.not_eq_true'] at hh
  obtain ⟨h1, h2, h3⟩ := header_conds_of_not_header _ hh
  rw [parseLine]
  simp only [h1, h2, h3, hd, Bool.false_eq_true, if_false, if_true]

theorem parseLine_none_nonheader (st : ParseState) (l : Str)
    (hcur : st.current = none) (hh : isSectionHeader (trimL l) = false) :
    parseLine st l = st := by
  obtain ⟨h1, h2, h3⟩ := header_conds_of_not_header _ hh
  rw [parseLine]
  simp only [h1, h2, h3, Bool.false_eq_true, if_false]
  split
  · cases st
    simp only [ParseState.mk.injEq] at *
    simp_all
  · rw [hcur]

theorem foldl_parseLine_none (post : List Str) (st : ParseState)
    (hcur : st.current = none)
    (hpost : ∀ l ∈ post, isSectionHeader (trimL l) = false) :
    post.foldl parseLine st = st := by
  induction post generalizing st with
  | nil => rfl
  | cons l rest ih =>
    rw [List.foldl_cons, parseLine_none_nonheader st l hcur (hpost l (by simp))]
    exact ih st hcur (fun x hx => hpost x (by simp [hx]))

/-- C4, counterexample to the claim as stated.  A line merely containing
`"Summary"` (here `"Summary of changes"`) does not reset the section —
the code tests `startswith('**Summary')` — so the following bullet is
still extracted; and a line starting with `'#'` that matches a section
header test (here `"# ADDED ITEMS"`) sets the section instead of
resetting it, so its bullets are extracted too. -/
theorem C4_counterexample :
    "Foo".data ∈ (parse_changes "ADDED ITEMS:\nSummary of changes\n- Foo".data).added ∧
    infixB "Summary".data (trimL "Summary of changes".data) = true ∧
    "Bar".data ∈ (parse_changes "# ADDED ITEMS\n- Bar".data).added ∧
    startsWithChar '#' (trimL "# ADDED ITEMS".data) = true := by decide

/-- C4 (amended): any line that does not match one of the three
section-header keyword tests and that starts with `'#'`, starts with
`"**Summary"`, or contains `"Items Unchanged"` resets the current
section tag to none, so bullet lines after such a line (and before the
next section header) are not extracted into any of the three lists. -/
theorem C4_reset_drops_following_bullets (st : ParseState) (raw : Str) (post : List Str)
    (hreset : isResetLine (trimL raw) = true)
    (hpost : ∀ l ∈ post, isSectionHeader (trimL l) = false) :
    ((raw :: post).foldl parseLine st).added = st.added ∧
    ((raw :: post).foldl parseLine st).removed = st.removed ∧
    ((raw :: post).foldl parseLine st).changed = st.changed ∧
    ((raw :: post).foldl parseLine st).current = none := by
  rw [List.foldl_cons, parseLine_reset st raw hreset, foldl_parseLine_none post _ rfl hpost]
  exact ⟨rfl, rfl, rfl, rfl⟩

/-- Witness for `C4_reset_drops_following_bullets`: after the reset line
`"**Summary of changes"` the bullet `"- Foo"` is not extracted, even
though the parser was inside the added section. -/
theorem C4_reset_witness :
    isResetLine (trimL "**Summary of changes".data) = true ∧
    (["**Summary of changes".data, "- Foo".data].foldl parseLine
      ⟨some Tag.added, [], [], []⟩).added = [] :=
  ⟨by decide,
    (C4_reset_drops_following_bullets ⟨some Tag.added, [], [], []⟩
      "**Summary of changes".data ["- Foo".data] (by decide) (by decide)).1⟩

/-! ## Item-table lemmas -/

theorem lowerEq_refl (x : Str) : lowerEq x x = true := by
  simp [lowerEq]

theorem modifyIdx_length (f : Item → Item) (i : Nat) (l : List Item) :
    (modifyIdx f i l).length = l.length := by
  induction l generalizing i with
  | nil => cases i <;> rfl
  | cons a rest ih =>
    cases i with
    | zero => rfl
    | succ j => simp [modifyIdx, ih]

theorem mem_modifyIdx (f : Item → Item) (i : Nat) (l : List Item) :
    ∀ it ∈ modifyIdx f i l, it ∈ l ∨ ∃ it0 ∈ l, it = f it0 := by
  induction l generalizing i with
  | nil => cases i <;> simp [modifyIdx]
  | cons a rest ih =>
    cases i with
    | zero =>
      intro it hit
      rcases List.mem_cons.1 hit with h | h
      · exact Or.inr ⟨a, by simp, h⟩
      · exact Or.inl (by simp [h])
    | succ j =>
      intro it hit
      rcases List.mem_cons.1 hit with h | h
      · exact Or.inl (by simp [h])
      · rcases ih j it h with h' | ⟨it0, h0, he⟩
        · exact Or.inl (by simp [h'])
        · exact Or.inr ⟨it0, by simp [h0], he⟩

theorem get?_modifyIdx_self (f : Item → Item) (i : Nat) (l : List Item) :
    (modifyIdx f i l).get? i = (l.get? i).map f := by
  induction l generalizing i with
  | nil => cases i <;> simp [modifyIdx]
  | cons a rest ih =>
    cases i with
    | zero => rfl
    | succ j => simpa [modifyIdx] using ih j

theorem get?_modifyIdx_other (f : Item → Item) {i j : Nat} (l : List Item)
    (h : j ≠ i) : (modifyIdx f i l).get? j = l.get? j := by
  induction l generalizing i j with
  | nil => cases i <;> simp [modifyIdx]
  | cons a rest ih =>
    cases i with
    | zero =>
      cases j with
      | zero => exact absurd rfl h
      | succ j' => rfl
    | succ i' =>
      cases j with
      | zero => rfl
      | succ j' => simpa [modifyIdx] using ih (fun hc => h (by omega))

theorem itemInv_decOne (now : Nat) (it : Item) : ItemInv (decOne now it) := by
  constructor
  · simp [decOne]
  · simp only [decOne, decide_eq_true_eq]
    constructor
    · intro h1
      rcases lt_max_iff.2 (Or.inl (by omega : (0 : Int) < it.quantity - 1)) with h
      exact h
    · intro h0
      rcases lt_max_iff.1 h0 with h | h
      · omega
      · omega

theorem itemInv_addUpd (now : Nat) (it : Item) (h : ItemInv it) :
    ItemInv { it with lastSeen := now, active := true, quantity := it.quantity + 1 } := by
  obtain ⟨hq, _⟩ := h
  constructor
  · simp
    omega
  · simp
    omega

theorem inv_add_item (now : Nat) (name : Str) (items : List Item)
    (h : ∀ it ∈ items, ItemInv it) : ∀ it ∈ add_item now name items, ItemInv it := by
  rw [add_item]
  cases hf : items.findIdx? (fun it => lowerEq it.name name) with
  | some i =>
    intro it hit
    rcases mem_modifyIdx _ _ _ it hit with hmem | ⟨it0, h0, he⟩
    · exact h it hmem
    · exact he ▸ itemInv_addUpd now it0 (h it0 h0)
  | none =>
    intro it hit
    rcases List.mem_append.1 hit with hmem | hmem
    · exact h it hmem
    · rw [List.mem_singleton] at hmem
      subst hmem
      exact ⟨by simp, by simp⟩

theorem inv_remove_item (now : Nat) (name : Str) (items : List Item)
    (h : ∀ it ∈ items, ItemInv it) :
    ∀ it ∈ (remove_item now name items).1, ItemInv it := by
  rw [remove_item]
  split
  · intro it hit
    rcases List.mem_map.1 hit with ⟨it0, h0, he⟩
    by_cases hc : lowerEq it0.name name = true
    · rw [if_pos hc] at he
      exact he ▸ itemInv_decOne now it0
    · rw [if_neg hc] at he
      exact he ▸ h it0 h0
  · cases hf : items.findIdx? (fun it => containsLower name it.name && it.active) with
    | some i =>
      intro it hit
      simp only [hf] at hit
      rcases mem_modifyIdx _ _ _ it hit with hmem | ⟨it0, h0, he⟩
      · exact h it hmem
      · exact he ▸ itemInv_decOne now it0
    | none =>
      intro it hit
      simp only [hf] at hit
      exact h it hit

theorem inv_applyOp (items : List Item) (op : Op)
    (h : ∀ it ∈ items, ItemInv it) : ∀ it ∈ applyOp items op, ItemInv it := by
  cases op with
  | add now name => exact inv_add_item now name items h
  | remove now name => exact inv_remove_item now name items h

theorem inv_runOps (ops : List Op) (items : List Item)
    (h : ∀ it ∈ items, ItemInv it) : ∀ it ∈ runOps ops items, ItemInv it := by
  induction ops generalizing items with
  | nil => exact h
  | cons op rest ih =>
    rw [runOps, List.foldl_cons]
    exact ih (applyOp items op) (inv_applyOp items op h)

theorem runOps_append (l1 l2 : List Op) (items : List Item) :
    runOps (l1 ++ l2) items = runOps l2 (runOps l1 items) := by
  simp [runOps, List.foldl_append]

theorem add_item_single_exact (now : Nat) (x : Str) (it : Item)
    (h : lowerEq it.name x = true) :
    add_item now x [it] =
      [{ it with lastSeen := now, active := true, quantity := it.quantity + 1 }] := by
  rw [add_item]
  rw [List.findIdx?_cons, if_pos (by simpa using h)]
  rfl

theorem remove_item_single_exact (now : Nat) (x : Str) (it : Item)
    (h : lowerEq it.name x = true) :
    remove_item now x [it] = ([decOne now it], true) := by
  rw [remove_item, if_pos (by simp [h])]
  simp [h]

theorem runOps_adds (x : Str) (k : Nat) :
    ∀ q : Int, ∀ f : Nat,
      runOps (List.replicate k (Op.add 0 x)) [⟨x, q, true, f, 0⟩] =
        [⟨x, q + k, true, f, 0⟩] := by
  induction k with
  | zero => simp [runOps]
  | succ k ih =>
    intro q f
    rw [List.replicate_succ, runOps, List.foldl_cons]
    have hstep : applyOp [⟨x, q, true, f, 0⟩] (Op.add 0 x) = [⟨x, q + 1, true, f, 0⟩] := by
      simp only [applyOp]
      rw [add_item_single_exact 0 x _ (lowerEq_refl x)]
    rw [hstep]
    have := ih (q + 1) f
    rw [runOps] at this
    rw [this]
    simp only [List.cons.injEq, Item.mk.injEq, true_and, and_true]
    omega

theorem runOps_adds_nil (x : Str) (n : Nat) (hn : n ≠ 0) :
    runOps (List.replicate n (Op.add 0 x)) [] = [⟨x, n, true, 0, 0⟩] := by
  cases n with
  | zero => exact absurd rfl hn
  | succ m =>
    rw [List.replicate_succ, runOps, List.foldl_cons]
    have hstep : applyOp [] (Op.add 0 x) = [⟨x, 1, true, 0, 0⟩] := by
      simp [applyOp, add_item]
    rw [hstep]
    have := runOps_adds x m 1 0
    rw [runOps] at this
    rw [this]
    simp only [List.cons.injEq, Item.mk.injEq, true_and, and_true]
    omega

theorem runOps_removes_nil (x : Str) (m : Nat) :
    runOps (List.replicate m (Op.remove 1 x)) [] = [] := by
  induction m with
  | zero => rfl
  | succ k ih =>
    rw [List.replicate_succ, runOps, List.foldl_cons]
    have hstep : applyOp [] (Op.remove 1 x) = [] := by
      simp [applyOp, remove_item]
    rw [hstep]
    exact ih

theorem runOps_removes_zero (x : Str) (m : Nat) :
    runOps (List.replicate m (Op.remove 1 x)) [⟨x, 0, false, 0, 1⟩] =
      [⟨x, 0, false, 0, 1⟩] := by
  induction m with
  | zero => rfl
  | succ k ih =>
    rw [List.replicate_succ, runOps, List.foldl_cons]
    have hstep : applyOp [⟨x, 0, false, 0, 1⟩] (Op.remove 1 x) = [⟨x, 0, false, 0, 1⟩] := by
      simp only [applyOp]
      rw [remove_item_single_exact 1 x _ (lowerEq_refl x)]
      simp [decOne]
    rw [hstep]
    exact ih

theorem runOps_removes (x : Str) (m : Nat) :
    ∀ (q : Int) (a : Bool) (l1 : Nat), 1 ≤ q → q ≤ m →
      runOps (List.replicate m (Op.remove 1 x)) [⟨x, q, a, 0, l1⟩] =
        [⟨x, 0, false, 0, 1⟩] := by
  induction m with
  | zero =>
    intro q a l1 h1 h2
    exfalso
    omega
  | succ k ih =>
    intro q a l1 h1 h2
    rw [List.replicate_succ, runOps, List.foldl_cons]
    have hstep : applyOp [⟨x, q, a, 0, l1⟩] (Op.remove 1 x) =
        [⟨x, max (q - 1) 0, decide (1 < q), 0, 1⟩] := by
      simp only [applyOp]
      rw [remove_item_single_exact 1 x _ (lowerEq_refl x)]
      rfl
    rw [hstep]
    by_cases hq : q = 1
    · subst hq
      have h0 : max (1 - 1 : Int) 0 = 0 := by decide
      have ha : decide ((1 : Int) < 1) = false := by decide
      rw [h0, ha]
      have := runOps_removes_zero x k
      rw [runOps] at this
      exact this
    · have h2q : 2 ≤ q := by omega
      have h0 : max (q - 1) 0 = q - 1 := by omega
      have ha : decide (1 < q) = true := by simp; omega
      rw [h0, ha]
      have := ih (q - 1) true 1 (by omega) (by omega)
      rw [runOps] at this
      exact this

/-! ## Claims about the Inventory Reconciler item state -/

/-- C3: for every sequence of add and remove operations applied to the
empty item table, every item's quantity is non-negative and every item
is active iff its quantity is positive; and after `n` adds of a name
followed by `m ≥ n` removes of that name, every item has quantity 0 and
is inactive (the quantity floors at 0 and the active flag is false). -/
theorem C3_quantity_floor_and_active_iff (x : Str) (n m : Nat) (hnm : n ≤ m) :
    (∀ ops : List Op, ∀ it ∈ runOps ops [], ItemInv it) ∧
    (∀ it ∈ runOps
        (List.replicate n (Op.add 0 x) ++ List.replicate m (Op.remove 1 x)) [],
      it.quantity = 0 ∧ it.active = false) := by
  constructor
  · intro ops
    exact inv_runOps ops [] (by simp)
  · rw [runOps_append]
    by_cases hn : n = 0
    · subst hn
      simp only [List.replicate_zero]
      rw [show runOps [] [] = [] from rfl, runOps_removes_nil]
      simp
    · rw [runOps_adds_nil x n hn,
        runOps_removes x m n true 0 (by omega) (by omega)]
      intro it hit
      simp only [List.mem_singleton] at hit
      subst hit
      exact ⟨rfl, rfl⟩

/-- Witness for `C3_quantity_floor_and_active_iff` at `n = 1`, `m = 2`. -/
theorem C3_quantity_witness :
    (1 ≤ 2) ∧
    ((∀ ops : List Op, ∀ it ∈ runOps ops [], ItemInv it) ∧
     (∀ it ∈ runOps
        (List.replicate 1 (Op.add 0 "Coke".data) ++
          List.replicate 2 (Op.remove 1 "Coke".data)) [],
       it.quantity = 0 ∧ it.active = false)) :=
  ⟨by decide, C3_quantity_floor_and_active_iff "Coke".data 1 2 (by decide)⟩

/-! ## Claims about the removal lookup order -/

theorem findIdx?_some_facts {p : Item → Bool} {l : List Item} {i : Nat}
    (h : l.findIdx? p = some i) :
    ∃ it, l.get? i = some it ∧ p it = true ∧
      ∀ j jt, j < i → l.get? j = some jt → p jt = false := by
  rw [List.findIdx?_eq_some_iff_findIdx_eq] at h
  obtain ⟨hlen, hidx⟩ := h
  subst hidx
  refine ⟨l.get ⟨List.findIdx p l, hlen⟩, List.get?_eq_get hlen, ?_, ?_⟩
  · exact List.findIdx_get
  · intro j jt hj hjt
    have hjlen : j < l.length := by omega
    rw [List.get?_eq_get hjlen] at hjt
    have hp : p l[j] = false := List.not_of_lt_findIdx hj
    have heq : l.get ⟨j, hjlen⟩ = l[j] := List.get_eq_getElem l ⟨j, hjlen⟩
    rw [heq] at hjt
    injection hjt with h2
    rw [← h2]
    exact hp

theorem remove_item_nomatch (now : Nat) (name : Str) (items : List Item)
    (h : (remove_item now name items).2 = false) :
    (remove_item now name items).1 = items := by
  by_cases hany : items.any (fun it => lowerEq it.name name) = true
  · rw [remove_item, if_pos hany] at h
    exact absurd h (by simp)
  · rw [remove_item, if_neg hany] at h ⊢
    cases hf : items.findIdx? (fun it => containsLower name it.name && it.active) with
    | some i =>
      rw [hf] at h
      exact absurd h (by simp)
    | none =>
      rfl

/-- C7: for every remove event with no exact case-insensitive match, the
reconciler falls back to a case-insensitive substring containment match
restricted to active items, updates exactly the first such item (all
other rows are untouched), and reports a match; and whenever an exact
match exists, every row that does not match exactly — in particular any
active item merely containing the query — is untouched. -/
theorem C7_remove_lookup_order (now : Nat) (x : Str) (items : List Item) (i : Nat)
    (hnoexact : ∀ it ∈ items, lowerEq it.name x = false)
    (hfind : items.findIdx? (fun it => containsLower x it.name && it.active) = some i) :
    (remove_item now x items).2 = true ∧
    (remove_item now x items).1.get? i = (items.get? i).map (decOne now) ∧
    (∀ j, j ≠ i → (remove_item now x items).1.get? j = items.get? j) ∧
    (∃ it, items.get? i = some it ∧ containsLower x it.name = true ∧ it.active = true) ∧
    (∀ j jt, j < i → items.get? j = some jt →
      (containsLower x jt.name && jt.active) = false) ∧
    (∀ items2 : List Item, (∃ it ∈ items2, lowerEq it.name x = true) →
      (remove_item now x items2).2 = true ∧
      ∀ j jt, items2.get? j = some jt → lowerEq jt.name x = false →
        (remove_item now x items2).1.get? j = some jt) := by
  have hany : items.any (fun it => lowerEq it.name x) = false :=
    List.any_eq_false.2 (fun it hmem => by simp [hnoexact it hmem])
  have hrw : remove_item now x items = (modifyIdx (decOne now) i items, true) := by
    rw [remove_item, if_neg (by simp [hany]), hfind]
  obtain ⟨it0, hget, hp, hmin⟩ := findIdx?_some_facts hfind
  refine ⟨by rw [hrw], ?_, ?_, ?_, ?_, ?_⟩
  · rw [hrw]
    exact get?_modifyIdx_self (decOne now) i items
  · intro j hj
    rw [hrw]
    exact get?_modifyIdx_other (decOne now) items hj
  · have hp2 : containsLower x it0.name = true ∧ it0.active = true := by
      simpa using hp
    exact ⟨it0, hget, hp2.1, hp2.2⟩
  · exact hmin
  · intro items2 ⟨it, hmem, hexact⟩
    have hany2 : items2.any (fun it => lowerEq it.name x) = true :=
      List.any_eq_true.2 ⟨it, hmem, hexact⟩
    have hrw2 : remove_item now x items2 =
        (items2.map (fun it => if lowerEq it.name x then decOne now it else it), true) := by
      rw [remove_item, if_pos (by simp [hany2])]
    refine ⟨by rw [hrw2], ?_⟩
    intro j jt hjt hne
    rw [hrw2]
    rw [List.get?_map, hjt]
    simp [hne]

/-- Witness for `C7_remove_lookup_order`: the specification's own
example — removing `"water bottle"` fuzzy-matches the active item
`"Childrens water bottle with red spout"` and decrements it when no
exact match exists. -/
theorem C7_remove_lookup_witness :
    (remove_item 5 "water bottle".data
      [⟨"Childrens water bottle with red spout".data, 2, true, 0, 0⟩]).2 = true ∧
    (remove_item 5 "water bottle".data
      [⟨"Childrens water bottle with red spout".data, 2, true, 0, 0⟩]).1.get? 0 =
      some ⟨"Childrens water bottle with red spout".data, 1, true, 0, 5⟩ := by
  have h := C7_remove_lookup_order 5 "water bottle".data
    [⟨"Childrens water bottle with red spout".data, 2, true, 0, 0⟩] 0
    (by decide) (by decide)
  refine ⟨h.1, ?_⟩
  rw [h.2.1]
  decide

/-- C9: a remove event whose name exactly (case-insensitively) matches a
deactivated item with quantity 0 still succeeds through the exact-match
branch: the quantity stays 0, the item stays inactive, its last-seen
timestamp is refreshed, and every other row — in particular an active
item whose name merely contains the query — is untouched, because the
fuzzy fallback never runs. -/
theorem C9_exact_match_hits_inactive_row (now : Nat) (x : Str) (items : List Item)
    (i : Nat) (it : Item) (hit : items.get? i = some it)
    (hname : lowerEq it.name x = true) (hq : it.quantity = 0) (hact : it.active = false)
    (huniq : ∀ j jt, j ≠ i → items.get? j = some jt → lowerEq jt.name x = false) :
    (remove_item now x items).2 = true ∧
    (remove_item now x items).1.get? i =
      some ⟨it.name, 0, false, it.firstSeen, now⟩ ∧
    (∀ j jt, j ≠ i → items.get? j = some jt →
      (remove_item now x items).1.get? j = some jt) := by
  have hany : items.any (fun it => lowerEq it.name x) = true :=
    List.any_eq_true.2 ⟨it, List.get?_mem hit, hname⟩
  have hrw : remove_item now x items =
      (items.map (fun it => if lowerEq it.name x then decOne now it else it), true) := by
    rw [remove_item, if_pos (by simp [hany])]
  refine ⟨by rw [hrw], ?_, ?_⟩
  · rw [hrw]
    rw [List.get?_map, hit]
    cases it with
    | mk nm q a f l =>
      simp only at hq hact
      subst hq
      subst hact
      simp only at hname
      simp [hname, decOne]
  · intro j jt hj hjt
    rw [hrw]
    rw [List.get?_map, hjt]
    simp [huniq j jt hj hjt]

/-- Witness for `C9_exact_match_hits_inactive_row`: removing `"Coke"`
when the table holds the inactive quantity-0 item `"coke"` and the
active item `"cherry coke"` refreshes only the former and leaves the
latter — which contains the query — untouched. -/
theorem C9_exact_match_witness :
    (remove_item 9 "Coke".data
      [⟨"coke".data, 0, false, 2, 3⟩, ⟨"cherry coke".data, 4, true, 0, 0⟩]).2 = true ∧
    (remove_item 9 "Coke".data
      [⟨"coke".data, 0, false, 2, 3⟩, ⟨"cherry coke".data, 4, true, 0, 0⟩]).1.get? 0 =
      some ⟨"coke".data, 0, false, 2, 9⟩ ∧
    (remove_item 9 "Coke".data
      [⟨"coke".data, 0, false, 2, 3⟩, ⟨"cherry coke".data, 4, true, 0, 0⟩]).1.get? 1 =
      some ⟨"cherry coke".data, 4, true, 0, 0⟩ := by
  have h := C9_exact_match_hits_inactive_row 9 "Coke".data
    [⟨"coke".data, 0, false, 2, 3⟩, ⟨"cherry coke".data, 4, true, 0, 0⟩] 0
    ⟨"coke".data, 0, false, 2, 3⟩ (by decide) (by decide) (by decide) (by decide)
    (by
      intro j jt hj hjt
      cases j with
      | zero => exact absurd rfl hj
      | succ j1 =>
        cases j1 with
        | zero =>
          injection hjt with h2
          rw [← h2]
          decide
        | succ j2 => simp [List.get?] at hjt)
  exact ⟨h.1, h.2.1, h.2.2 1 ⟨"cherry coke".data, 4, true, 0, 0⟩ (by decide) (by decide)⟩

/-! ## Claims about scan persistence -/

/-- C8: processing a quantity-changed event issues exactly one database
call, a `log_change`; no item row and no scan row is touched, and the
only persistent effect is one appended history record of kind
`quantity_changed` carrying the normalized name and the raw description. -/
theorem C8_quantity_changed_only_appends_history (db : DB) (sid : Nat) (raw : Str) :
    (applyCalls (changedCalls sid raw) db).items = db.items ∧
    (applyCalls (changedCalls sid raw) db).scans = db.scans ∧
    (applyCalls (changedCalls sid raw) db).changes =
      db.changes ++ [⟨sid, extract_item_name raw, ChangeType.quantity_changed, raw⟩] :=
  ⟨rfl, rfl, rfl⟩

/-- C2, counterexample to the claim as stated: a remove event with no
match at all ("X" against an empty item table) leaves the item table
untouched, but a `removed` change record for it is still persisted —
`log_change` runs unconditionally after `remove_item` — so the record is
not appended "exactly when a match existed". -/
theorem C2_counterexample :
    (remove_item 0 (extract_item_name "X".data) emptyDB.items).2 = false ∧
    (save_to_database neverFail 0 none "REMOVED ITEMS:\n- X".data 0 0 emptyDB).items = [] ∧
    (save_to_database neverFail 0 none "REMOVED ITEMS:\n- X".data 0 0 emptyDB).changes =
      [⟨0, "X".data, ChangeType.removed, "X".data⟩] := by decide

/-- C2 (amended): a remove event for which neither the exact
case-insensitive lookup nor the fuzzy substring fallback finds an item
mutates no item row (the failure is reported on the console only), but a
`removed` change record is appended for every remove event — match or no
match — not only when a match existed. -/
theorem C2_unmatched_removal_drops_item_effect (now sid : Nat) (raw : Str) (db : DB)
    (h : (remove_item now (extract_item_name raw) db.items).2 = false) :
    (applyCalls (removedCalls now sid raw) db).items = db.items ∧
    (applyCalls (removedCalls now sid raw) db).scans = db.scans ∧
    (applyCalls (removedCalls now sid raw) db).changes =
      db.changes ++ [⟨sid, extract_item_name raw, ChangeType.removed, raw⟩] := by
  refine ⟨?_, rfl, rfl⟩
  show (remove_item now (extract_item_name raw) db.items).1 = db.items
  exact remove_item_nomatch now (extract_item_name raw) db.items h

/-- Witness for `C2_unmatched_removal_drops_item_effect` at the concrete
remove event `"X"` against the empty database. -/
theorem C2_unmatched_removal_witness :
    (remove_item 3 (extract_item_name "X".data) emptyDB.items).2 = false ∧
    (applyCalls (removedCalls 3 9 "X".data) emptyDB).items = emptyDB.items ∧
    (applyCalls (removedCalls 3 9 "X".data) emptyDB).changes =
      emptyDB.changes ++ [⟨9, extract_item_name "X".data, ChangeType.removed, "X".data⟩] :=
  ⟨by decide,
    (C2_unmatched_removal_drops_item_effect 3 9 "X".data emptyDB (by decide)).1,
    (C2_unmatched_removal_drops_item_effect 3 9 "X".data emptyDB (by decide)).2.2⟩

theorem runCalls_first_fail (oracle : Nat → Bool) (ops : List (DB → DB)) :
    ∀ (st : Nat) (db : DB) (j : Nat),
      j < ops.length → (∀ m, m < j → oracle (st + m) = false) → oracle (st + j) = true →
      runCalls oracle st ops db = ((ops.take j).foldl (fun d op => op d) db, false) := by
  induction ops with
  | nil =>
    intro st db j hj _ _
    exact absurd hj (by simp)
  | cons op rest ih =>
    intro st db j hj hpre hfail
    cases j with
    | zero =>
      rw [runCalls, if_pos (by simpa using hfail)]
      simp
    | succ j1 =>
      have h0 : oracle st = false := by simpa using hpre 0 (by omega)
      rw [runCalls, if_neg (by simp [h0]), List.take_succ_cons, List.foldl_cons]
      refine ih (st + 1) (op db) j1 (by simpa using hj) ?_ ?_
      · intro m hm
        have := hpre (m + 1) (by omega)
        rwa [show st + (m + 1) = st + 1 + m by omega] at this
      · rwa [show st + (j1 + 1) = st + 1 + j1 by omega] at hfail

/-- C1, counterexample to the claim as stated: with a database failure
injected at call index 3 (the `add_item` for the second added item) of
the scan `"ADDED ITEMS:\n- A\n- B"`, an exception is raised during
persistence (the run flag is false), yet the scan row, the first item
and its change record all remain committed — nothing is rolled back —
and `save_to_database` returns that partially persisted state normally
instead of re-raising. -/
theorem C1_counterexample :
    (runCalls (fun i => i == 3) 0
      (scanCalls 7 0 none "ADDED ITEMS:\n- A\n- B".data 0 0) emptyDB).2 = false ∧
    (save_to_database (fun i => i == 3) 7 none "ADDED ITEMS:\n- A\n- B".data 0 0
      emptyDB).items = [⟨"A".data, 1, true, 7, 7⟩] ∧
    (save_to_database (fun i => i == 3) 7 none "ADDED ITEMS:\n- A\n- B".data 0 0
      emptyDB).changes = [⟨0, "A".data, ChangeType.added, "A".data⟩] ∧
    (save_to_database (fun i => i == 3) 7 none "ADDED ITEMS:\n- A\n- B".data 0 0
      emptyDB).scans ≠ [] := by decide

/-- C1 (amended): each database mutation of a scan commits in its own
transaction, not in a single transaction per scan.  When the first
failing call of a `save_to_database` run is the one at index `j`, the
calls before `j` remain committed (nothing of the scan is rolled back),
the calls after `j` are skipped, and the exception is caught and logged
by `save_to_database`, which returns the partially persisted state
normally to the caller instead of re-raising. -/
theorem C1_per_call_commit_and_swallowed_failure (oracle : Nat → Bool) (now : Nat)
    (imagePath : Option Str) (analysis : Str) (itok otok : Nat) (db : DB) (j : Nat)
    (hj : j < (scanCalls now db.scans.length imagePath analysis itok otok).length)
    (hpre : ∀ m, m < j → oracle m = false) (hfail : oracle j = true) :
    save_to_database oracle now imagePath analysis itok otok db =
      applyCalls ((scanCalls now db.scans.length imagePath analysis itok otok).take j) db ∧
    (runCalls oracle 0 (scanCalls now db.scans.length imagePath analysis itok otok)
      db).2 = false := by
  have h := runCalls_first_fail oracle
    (scanCalls now db.scans.length imagePath analysis itok otok) 0 db j hj
    (by simpa using hpre) (by simpa using hfail)
  constructor
  · rw [save_to_database, h]
    rfl
  · rw [h]

/-- Witness for `C1_per_call_commit_and_swallowed_failure` with the
failure injected at call index 3 of a two-item scan. -/
theorem C1_partial_commit_witness :
    (3 < (scanCalls 7 (emptyDB.scans.length) none "ADDED ITEMS:\n- A\n- B".data 0 0).length) ∧
    save_to_database (fun i => i == 3) 7 none "ADDED ITEMS:\n- A\n- B".data 0 0 emptyDB =
      applyCalls ((scanCalls 7 (emptyDB.scans.length) none
        "ADDED ITEMS:\n- A\n- B".data 0 0).take 3) emptyDB :=
  ⟨by decide,
    (C1_per_call_commit_and_swallowed_failure (fun i => i == 3) 7 none
      "ADDED ITEMS:\n- A\n- B".data 0 0 emptyDB 3 (by decide)
      (by decide) (by decide)).1⟩

end PantryScanner
